import Mathlib

/-!
# Verification of the evolutio Iterated Prisoner's Dilemma core

Shallow embedding of `src/src-tauri/src/lib.rs`:
the action/payoff model, the strategy roster with its factory,
the match engine (`run_game`), the round-robin tournament
(`run_tournament`) and the evolutionary loop (`run_evolution`).

Modelling conventions:
* Rust `i32` scores are modelled as `Int`; `u32` counts as `Nat`.
  The single `u32` subtraction that could wrap (`population[worst_idx] -= 1`)
  is modelled with the explicit two's-complement wrap `% 2 ^ 32`.
* The thread-local random generator is modelled as an explicit oracle
  `os : Nat → ℚ` of uniform draws in `[0, 1)` together with a cursor `k`
  that advances by one for every `random_bool` call, in source call order.
  `rng.random_bool(p)` is `os k < p`.
* `f64` probabilities are modelled as `ℚ`; the only comparisons the
  claims exercise are against the exact constants `0`, `1/2`, `1/10`, `1`.
-/

namespace Evolutio

-- ## 1. Basic data structures

/-- `Action`: the binary per-round choice (`enum Action` in the source). -/
inductive Action where
  | Cooperate
  | Defect
deriving DecidableEq, Repr

/-- `Action::toggle`: flip Cooperate/Defect. -/
def Action.toggle : Action → Action
  | .Cooperate => .Defect
  | .Defect => .Cooperate

/-- `Round`: (my action, opponent's action), own perspective. -/
abbrev Round := Action × Action

/-- `MatchResult` as in the source (scores are `i32`, modelled as `Int`). -/
structure MatchResult where
  player_name : String
  opponent_name : String
  rounds : List Round
  player_score : Int
  opponent_score : Int
deriving DecidableEq, Repr

/-- `calculate_payoff`: the auxiliary scoring function from the source.
It takes no payoff-matrix argument; the values (5,3,1,0) are hardcoded. -/
def calculate_payoff : Action → Action → Int × Int
  | .Defect, .Cooperate => (5, 0)
  | .Cooperate, .Cooperate => (3, 3)
  | .Defect, .Defect => (1, 1)
  | .Cooperate, .Defect => (0, 5)

-- ## 2. The random source

/-- One draw of `rng.random_bool(p)`: compare the next uniform
rational in `[0,1)` against `p` and advance the cursor. -/
def randomBool (p : ℚ) (os : Nat → ℚ) (k : Nat) : Bool × Nat :=
  (decide (os k < p), k + 1)

-- ## 3. The strategy roster

/-- The closed roster of policies, as a tagged variant.  The source uses
trait objects over exactly these eight stateless unit structs. -/
inductive StrategyId where
  | titForTat
  | alwaysDefect
  | grimTrigger
  | alwaysCooperate
  | random
  | pavlov
  | generousTFT
  | joss
deriving DecidableEq, Repr

/-- `Strategy::name()` for each roster entry. -/
def StrategyId.name : StrategyId → String
  | .titForTat => "Tit-For-Tat"
  | .alwaysDefect => "Always Defect"
  | .grimTrigger => "Grim Trigger"
  | .alwaysCooperate => "Always Cooperate"
  | .random => "Random"
  | .pavlov => "Pavlov"
  | .generousTFT => "Generous TFT"
  | .joss => "Joss"

/-- `Strategy::next_move` for each roster entry, from the source.
The stochastic policies (`random`, `generous_tft`, `joss`) consume one
draw from the shared thread-local generator exactly when the source does;
the result carries the advanced cursor. -/
def StrategyId.next_move (s : StrategyId) (history : List Round)
    (os : Nat → ℚ) (k : Nat) : Action × Nat :=
  match s with
  | .titForTat =>
    (match history.getLast? with
     | some r => r.2
     | none => .Cooperate, k)
  | .alwaysDefect => (.Defect, k)
  | .grimTrigger =>
    (if history.any (fun r => r.2 = .Defect) then .Defect else .Cooperate, k)
  | .alwaysCooperate => (.Cooperate, k)
  | .random =>
    let b := randomBool (1/2) os k
    (if b.1 then .Cooperate else .Defect, b.2)
  | .pavlov =>
    (match history.getLast? with
     | none => .Cooperate
     | some r =>
       let p := calculate_payoff r.1 r.2
       if p.1 ≥ 3 then r.1
       else match r.1 with
         | .Cooperate => .Defect
         | .Defect => .Cooperate, k)
  | .generousTFT =>
    match history.getLast? with
    | none => (.Cooperate, k)
    | some r =>
      match r.2 with
      | .Cooperate => (.Cooperate, k)
      | .Defect =>
        let b := randomBool (1/10) os k
        (if b.1 then .Cooperate else .Defect, b.2)
  | .joss =>
    match history.getLast? with
    | none => (.Cooperate, k)
    | some r =>
      if r.2 = .Defect then (.Defect, k)
      else
        let b := randomBool (1/10) os k
        (if b.1 then .Defect else .Cooperate, b.2)

-- ## 4. Strategy factory

/-- `create_strategy`: lookup by identifier; any unknown identifier falls
through to `AlwaysDefect` (the source's `_` arm). -/
def create_strategy (id : String) : StrategyId :=
  if id = "tit_for_tat" then .titForTat
  else if id = "always_defect" then .alwaysDefect
  else if id = "grim_trigger" then .grimTrigger
  else if id = "always_cooperate" then .alwaysCooperate
  else if id = "random" then .random
  else if id = "pavlov" then .pavlov
  else if id = "generous_tft" then .generousTFT
  else if id = "joss" then .joss
  else .alwaysDefect

-- ## 5. The match engine

/-- The per-round loop shared verbatim by `run_game`, the tournament inner
loop and the evolution representative match (the three Rust loops are
textually identical; `run_game` uses both scores, the other two read only
the first).  State: remaining rounds, canonical history, both cumulative
scores, and the random cursor.  Per round: player 1's intent, player 2's
intent on the mirrored history, two independent noise flips, record, score. -/
def playRounds (p1 p2 : StrategyId) (noise : ℚ) (os : Nat → ℚ) :
    Nat → List Round → Int → Int → Nat → List Round × Int × Int × Nat
  | 0, history, s1, s2, k => (history, s1, s2, k)
  | n + 1, history, s1, s2, k =>
    let m1 := p1.next_move history os k
    let history_for_p2 : List Round := history.map (fun r => (r.2, r.1))
    let m2 := p2.next_move history_for_p2 os m1.2
    let a1 := if os m2.2 < noise then m1.1.toggle else m1.1
    let a2 := if os (m2.2 + 1) < noise then m2.1.toggle else m2.1
    let p := calculate_payoff a1 a2
    playRounds p1 p2 noise os n (history ++ [(a1, a2)]) (s1 + p.1) (s2 + p.2) (m2.2 + 2)

/-- `run_game` from the source: create both strategies, play `rounds`
rounds from an empty history, and package the `MatchResult`. -/
def run_game (p1_id p2_id : String) (rounds : Nat) (noise : ℚ)
    (os : Nat → ℚ) : MatchResult :=
  let p1 := create_strategy p1_id
  let p2 := create_strategy p2_id
  let r := playRounds p1 p2 noise os rounds [] 0 0 0
  { player_name := p1.name
    opponent_name := p2.name
    rounds := r.1
    player_score := r.2.1
    opponent_score := r.2.2.1 }

-- ## Claims about the payoff model, the factory and single strategies

/-- The spec's parameterized payoff matrix (§4.1).  The source has no such
type; this definition follows the spec's words, for comparison. -/
structure PayoffMatrix where
  t : Int
  r : Int
  p : Int
  s : Int

/-- The payoff table of spec §4.1, stated over an arbitrary matrix.
This definition follows the spec's words, for comparison with
`calculate_payoff`. -/
def payoff_spec (m : PayoffMatrix) : Action → Action → Int × Int
  | .Defect, .Cooperate => (m.t, m.s)
  | .Cooperate, .Cooperate => (m.r, m.r)
  | .Defect, .Defect => (m.p, m.p)
  | .Cooperate, .Defect => (m.s, m.t)

/-- C1 (counterexample): the payoff function does **not** match the §4.1
table for arbitrary matrix values — `calculate_payoff` takes no matrix
argument and hardcodes (T,R,P,S) = (5,3,1,0).  At the matrix with T = 4,
`calculate_payoff Defect Cooperate` still returns 5, not T. -/
theorem c1_payoff_not_parametric :
    ¬ ∀ (m : PayoffMatrix) (a1 a2 : Action),
        calculate_payoff a1 a2 = payoff_spec m a1 a2 := by
  intro h
  have h4 := h ⟨4, 3, 1, 0⟩ .Defect .Cooperate
  simp [calculate_payoff, payoff_spec] at h4

/-- C1 (amended): `calculate_payoff` is total and matches the §4.1 table
for the one fixed matrix T = 5, R = 3, P = 1, S = 0 that the source
hardcodes; it accepts no matrix parameter. -/
theorem calculate_payoff_matches_fixed_table :
    ∀ a1 a2 : Action, calculate_payoff a1 a2 = payoff_spec ⟨5, 3, 1, 0⟩ a1 a2 := by
  intro a1 a2
  cases a1 <;> cases a2 <;> rfl

/-- The roster identifiers, in source order (`all_ids`). -/
def all_ids : List String :=
  ["tit_for_tat", "always_defect", "grim_trigger", "always_cooperate",
   "random", "pavlov", "generous_tft", "joss"]

/-- C9: the factory is total: each of the eight roster identifiers maps to
its named strategy, and every identifier outside the roster resolves to
`always_defect` rather than producing an error. -/
theorem create_strategy_total_with_default :
    (create_strategy "tit_for_tat" = .titForTat ∧
     create_strategy "always_defect" = .alwaysDefect ∧
     create_strategy "grim_trigger" = .grimTrigger ∧
     create_strategy "always_cooperate" = .alwaysCooperate ∧
     create_strategy "random" = .random ∧
     create_strategy "pavlov" = .pavlov ∧
     create_strategy "generous_tft" = .generousTFT ∧
     create_strategy "joss" = .joss) ∧
    ∀ id : String, id ∉ all_ids → create_strategy id = .alwaysDefect := by
  refine ⟨by decide, ?_⟩
  intro id h
  simp only [all_ids, List.mem_cons, List.not_mem_nil, or_false, not_or] at h
  obtain ⟨h1, h2, h3, h4, h5, h6, h7, h8⟩ := h
  simp [create_strategy, h1, h2, h3, h4, h5, h6, h7, h8]

/-- C9 (witness): an identifier outside the roster, concretely. -/
theorem create_strategy_total_with_default_witness :
    create_strategy "no_such_strategy" = .alwaysDefect :=
  create_strategy_total_with_default.2 "no_such_strategy" (by decide)

/-- C7: once the opponent has defected in some recorded round of the
own-perspective history, `grim_trigger` plays Defect — for that history
and for every later extension of it, whatever either player does. -/
theorem grim_trigger_defects_forever (history rest : List Round)
    (os : Nat → ℚ) (k : Nat)
    (h : ∃ r ∈ history, r.2 = Action.Defect) :
    (StrategyId.grimTrigger.next_move (history ++ rest) os k).1 = Action.Defect := by
  obtain ⟨r, hr, hdef⟩ := h
  have : (history ++ rest).any (fun r => r.2 = Action.Defect) = true := by
    simp only [List.any_eq_true, decide_eq_true_eq]
    exact ⟨r, List.mem_append_left _ hr, hdef⟩
  simp [StrategyId.next_move, this]

/-- C7 (witness): after an opening round in which the opponent defected,
grim trigger defects two rounds later even though the opponent has
since cooperated. -/
theorem grim_trigger_defects_forever_witness :
    (StrategyId.grimTrigger.next_move
      ([(Action.Cooperate, Action.Defect)] ++
       [(Action.Defect, Action.Cooperate), (Action.Defect, Action.Cooperate)])
      (fun _ => 0) 0).1 = Action.Defect :=
  grim_trigger_defects_forever
    [(Action.Cooperate, Action.Defect)]
    [(Action.Defect, Action.Cooperate), (Action.Defect, Action.Cooperate)]
    (fun _ => 0) 0 ⟨(Action.Cooperate, Action.Defect), by decide, rfl⟩

-- ## Noise-free match runs

/-- `playRounds` with the two noise flips removed: the per-round loop as it
behaves when the flip condition is false every round.  Proof-side helper. -/
def pureRounds (p1 p2 : StrategyId) (os : Nat → ℚ) :
    Nat → List Round → Int → Int → Nat → List Round × Int × Int × Nat
  | 0, history, s1, s2, k => (history, s1, s2, k)
  | n + 1, history, s1, s2, k =>
    let m1 := p1.next_move history os k
    let history_for_p2 : List Round := history.map (fun r => (r.2, r.1))
    let m2 := p2.next_move history_for_p2 os m1.2
    let p := calculate_payoff m1.1 m2.1
    pureRounds p1 p2 os n (history ++ [(m1.1, m2.1)]) (s1 + p.1) (s2 + p.2) (m2.2 + 2)

/-- At noise probability 0 every flip check `os k < 0` fails (the draws are
non-negative), so the loop never toggles an intended action. -/
theorem playRounds_zero_noise (p1 p2 : StrategyId) (os : Nat → ℚ)
    (hos : ∀ j, 0 ≤ os j) (n : Nat) :
    ∀ history s1 s2 k,
      playRounds p1 p2 0 os n history s1 s2 k = pureRounds p1 p2 os n history s1 s2 k := by
  induction n with
  | zero => intro history s1 s2 k; rfl
  | succ n ih =>
    intro history s1 s2 k
    have hn : ∀ j, ¬ (os j < 0) := fun j => not_lt.mpr (hos j)
    rw [playRounds, pureRounds]
    simp only [hn, if_false]
    exact ih _ _ _ _

/-- C6: the concrete scenario of spec §8: five rounds, no noise,
tit-for-tat against always-defect under the hardcoded payoff values
T = 5, R = 3, P = 1, S = 0: round history (C,D),(D,D),(D,D),(D,D),(D,D),
player 1 scores 4, player 2 scores 9. -/
theorem tft_vs_always_defect_concrete (os : Nat → ℚ) (hos : ∀ j, 0 ≤ os j) :
    run_game "tit_for_tat" "always_defect" 5 0 os =
      { player_name := "Tit-For-Tat"
        opponent_name := "Always Defect"
        rounds := [(Action.Cooperate, Action.Defect), (Action.Defect, Action.Defect),
                   (Action.Defect, Action.Defect), (Action.Defect, Action.Defect),
                   (Action.Defect, Action.Defect)]
        player_score := 4
        opponent_score := 9 } := by
  have h := playRounds_zero_noise (create_strategy "tit_for_tat")
    (create_strategy "always_defect") os hos 5 [] 0 0 0
  simp only [run_game, h]
  rfl

/-- C6 (witness): the scenario at a concrete random source. -/
theorem tft_vs_always_defect_concrete_witness :
    run_game "tit_for_tat" "always_defect" 5 0 (fun _ => 0) =
      { player_name := "Tit-For-Tat"
        opponent_name := "Always Defect"
        rounds := [(Action.Cooperate, Action.Defect), (Action.Defect, Action.Defect),
                   (Action.Defect, Action.Defect), (Action.Defect, Action.Defect),
                   (Action.Defect, Action.Defect)]
        player_score := 4
        opponent_score := 9 } :=
  tft_vs_always_defect_concrete (fun _ => 0) (fun _ => le_refl 0)

/-- `always_cooperate` ignores the history and the generator. -/
theorem next_move_alwaysCooperate (history : List Round) (os : Nat → ℚ) (k : Nat) :
    StrategyId.alwaysCooperate.next_move history os k = (Action.Cooperate, k) := rfl

/-- Always-cooperate self-play in the noiseless loop: every round is
(C,C), worth 3 points per player per round. -/
theorem pureRounds_cooperate_scores (os : Nat → ℚ) (n : Nat) :
    ∀ history s1 s2 k,
      (pureRounds .alwaysCooperate .alwaysCooperate os n history s1 s2 k).2.1 = s1 + 3 * n ∧
      (pureRounds .alwaysCooperate .alwaysCooperate os n history s1 s2 k).2.2.1 = s2 + 3 * n := by
  induction n with
  | zero => intro history s1 s2 k; constructor <;> simp [pureRounds]
  | succ n ih =>
    intro history s1 s2 k
    rw [pureRounds]
    refine ⟨?_, ?_⟩
    · rw [(ih _ _ _ _).1]
      simp only [next_move_alwaysCooperate, calculate_payoff]
      push_cast; ring
    · rw [(ih _ _ _ _).2]
      simp only [next_move_alwaysCooperate, calculate_payoff]
      push_cast; ring

/-- C8 (counterexample): the claim fails as stated.  At `roundCount = 1`,
`noiseProbability = 1` (inside `[0,1]`) and the random source that is
constantly 0, both flips fire with certainty, the played round is (D,D),
and player 1 scores 1, not 3·1. -/
theorem c8_noise_breaks_cooperation :
    (run_game "always_cooperate" "always_cooperate" 1 1 (fun _ => 0)).player_score ≠ 3 * 1 := by
  decide

/-- C8 (amended): at noise probability 0 — instead of "any noise" — a match
of always-cooperate against itself scores 3·N for both players for every
round count N whose final score stays in `i32` range
(`3 · N ≤ 2147483647`; beyond that the source's `i32` accumulation itself
overflows, outside the exact-integer model) and every outcome of the
random source. -/
theorem always_cooperate_mutual_benefit (n : Nat) (os : Nat → ℚ)
    (hos : ∀ j, 0 ≤ os j) (_hN : 3 * (n : Int) ≤ 2147483647) :
    (run_game "always_cooperate" "always_cooperate" n 0 os).player_score = 3 * n ∧
    (run_game "always_cooperate" "always_cooperate" n 0 os).opponent_score = 3 * n := by
  have h := playRounds_zero_noise (create_strategy "always_cooperate")
    (create_strategy "always_cooperate") os hos n [] 0 0 0
  have hc : create_strategy "always_cooperate" = .alwaysCooperate := rfl
  rw [hc] at h
  have hs := pureRounds_cooperate_scores os n [] 0 0 0
  constructor
  · simp only [run_game, hc, h, hs.1, zero_add]
  · simp only [run_game, hc, h, hs.2, zero_add]

/-- C8 (witness): the amended statement at a concrete round count and
random source. -/
theorem always_cooperate_mutual_benefit_witness :
    (run_game "always_cooperate" "always_cooperate" 2 0 (fun _ => 0)).player_score = 3 * 2 ∧
    (run_game "always_cooperate" "always_cooperate" 2 0 (fun _ => 0)).opponent_score = 3 * 2 :=
  always_cooperate_mutual_benefit 2 (fun _ => 0) (fun _ => le_refl 0) (by norm_num)

-- ## 6. Tournament mode

/-- `TournamentResult`: ranked list of (display name, total score). -/
structure TournamentResult where
  ranking : List (String × Int)
deriving DecidableEq, Repr

/-- The double round-robin of `run_tournament`: for every ordered pair
`(i, j)` over the roster (self-play included) play one match with fresh
instances and add the row player's score into `total_scores[i]`.  The
scoreboard starts as eight zeros; the random cursor threads through the
matches in source order. -/
def tournamentFold (rounds : Nat) (noise : ℚ) (os : Nat → ℚ) : List Int × Nat :=
  (List.range all_ids.length).foldl
    (fun acc i =>
      (List.range all_ids.length).foldl
        (fun acc2 j =>
          let p1 := create_strategy (all_ids.getD i "")
          let p2 := create_strategy (all_ids.getD j "")
          let r := playRounds p1 p2 noise os rounds [] 0 0 acc2.2
          (acc2.1.set i (acc2.1.getD i 0 + r.2.1), r.2.2.2))
        acc)
    (List.replicate all_ids.length 0, 0)

/-- `run_tournament` from the source: accumulate the scoreboard, pair each
identifier's display name with its total, and sort by score descending with
Rust's stable `sort_by(|a, b| b.1.cmp(&a.1))`, modelled by the stable
`List.mergeSort` under the same comparator. -/
def run_tournament (rounds : Nat) (noise : ℚ) (os : Nat → ℚ) : TournamentResult :=
  let totals := (tournamentFold rounds noise os).1
  let ranking := (all_ids.map (fun id => (create_strategy id).name)).zip totals
  { ranking := ranking.mergeSort (fun a b => b.2 ≤ a.2) }

/-- A fold whose step preserves the length of the carried scoreboard
preserves it overall. -/
theorem foldl_score_length {β : Type} (f : List Int × Nat → β → List Int × Nat)
    (hf : ∀ acc a, ((f acc a).1).length = acc.1.length) :
    ∀ (l : List β) (acc : List Int × Nat), ((l.foldl f acc).1).length = acc.1.length := by
  intro l
  induction l with
  | nil => intro acc; rfl
  | cons a l ih => intro acc; rw [List.foldl_cons, ih, hf]

/-- The tournament scoreboard always has one slot per roster entry. -/
theorem tournamentFold_length (rounds : Nat) (noise : ℚ) (os : Nat → ℚ) :
    (tournamentFold rounds noise os).1.length = 8 := by
  unfold tournamentFold
  rw [foldl_score_length]
  · simp [all_ids]
  · intro acc i
    rw [foldl_score_length]
    intro acc2 j
    exact List.length_set ..

/-- The comparator `b.1.cmp(&a.1)` of the source, as the Boolean order
`mergeSort` consumes: `x` may precede `y` iff `y`'s score is ≤ `x`'s. -/
theorem tournament_le_trans (a b c : String × Int) :
    (decide (b.2 ≤ a.2)) = true → (decide (c.2 ≤ b.2)) = true →
    (decide (c.2 ≤ a.2)) = true := by
  simp only [decide_eq_true_eq]
  exact fun h1 h2 => le_trans h2 h1

theorem tournament_le_total (a b : String × Int) :
    ((decide (b.2 ≤ a.2)) || (decide (a.2 ≤ b.2))) = true := by
  simp only [Bool.or_eq_true, decide_eq_true_eq]
  exact le_total b.2 a.2

/-- C5: every tournament ranking (i) names each roster strategy exactly
once — its names are a permutation of the roster's display names —,
(ii) is sorted by total score non-increasing, and (iii) is stable: the
entries tied at any given score appear exactly in original roster order
(the sort never reorders ties of the unsorted scoreboard list). -/
theorem tournament_ranking_perm_sorted_stable (rounds : Nat) (noise : ℚ) (os : Nat → ℚ) :
    ((run_tournament rounds noise os).ranking.map Prod.fst).Perm
        (all_ids.map (fun id => (create_strategy id).name)) ∧
    (run_tournament rounds noise os).ranking.Pairwise (fun x y => y.2 ≤ x.2) ∧
    (∀ s : Int,
      (run_tournament rounds noise os).ranking.filter (fun x => x.2 = s) =
        ((all_ids.map (fun id => (create_strategy id).name)).zip
          (tournamentFold rounds noise os).1).filter (fun x => x.2 = s)) := by
  have hzl : ((all_ids.map (fun id => (create_strategy id).name)).zip
      (tournamentFold rounds noise os).1).length = 8 := by
    rw [List.length_zip, tournamentFold_length]
    simp [all_ids]
  have hperm : (run_tournament rounds noise os).ranking.Perm
      ((all_ids.map (fun id => (create_strategy id).name)).zip
        (tournamentFold rounds noise os).1) := by
    simpa only [run_tournament] using
      List.mergeSort_perm ((all_ids.map (fun id => (create_strategy id).name)).zip
        (tournamentFold rounds noise os).1) _
  refine ⟨?_, ?_, ?_⟩
  · have := hperm.map Prod.fst
    rw [List.map_fst_zip] at this
    · exact this
    · rw [tournamentFold_length]; simp [all_ids]
  · have hs := @List.sorted_mergeSort (String × Int)
      (fun a b : String × Int => decide (b.2 ≤ a.2))
      tournament_le_trans tournament_le_total
      ((all_ids.map (fun id => (create_strategy id).name)).zip
        (tournamentFold rounds noise os).1)
    refine List.Pairwise.imp ?_ hs
    intro a b h
    exact of_decide_eq_true h
  · intro s
    set base := ((all_ids.map (fun id => (create_strategy id).name)).zip
      (tournamentFold rounds noise os).1) with hbase
    have hpair : (base.filter (fun x => x.2 = s)).Pairwise
        (fun a b : String × Int => decide (b.2 ≤ a.2)) := by
      apply List.pairwise_of_forall_mem_list
      intro a ha b hb
      have ha2 : a.2 = s := by
        have := List.of_mem_filter ha
        exact of_decide_eq_true this
      have hb2 : b.2 = s := by
        have := List.of_mem_filter hb
        exact of_decide_eq_true this
      simp [ha2, hb2]
    have hsub : List.Sublist (base.filter (fun x => x.2 = s))
        (run_tournament rounds noise os).ranking := by
      simpa only [run_tournament] using
        List.sublist_mergeSort tournament_le_trans tournament_le_total hpair
          (List.filter_sublist base)
    have hsub2 : List.Sublist (base.filter (fun x => x.2 = s))
        ((run_tournament rounds noise os).ranking.filter (fun x => x.2 = s)) := by
      have h2 := hsub.filter (fun x => x.2 = s)
      rw [List.filter_filter] at h2
      simpa only [Bool.and_self] using h2
    have hlen : ((run_tournament rounds noise os).ranking.filter
        (fun x => x.2 = s)).length = (base.filter (fun x => x.2 = s)).length :=
      (hperm.filter _).length_eq
    exact (hsub2.eq_of_length hlen.symm).symm

/-- C5 (witness): the three parts at a concrete invocation (zero rounds,
zero noise, constant random source), with the sorted and stable parts
instantiated at concrete positions. -/
theorem tournament_ranking_perm_sorted_stable_witness :
    ((run_tournament 0 0 (fun _ => 0)).ranking.map Prod.fst).Perm
        (all_ids.map (fun id => (create_strategy id).name)) ∧
    (run_tournament 0 0 (fun _ => 0)).ranking.Pairwise (fun x y => y.2 ≤ x.2) ∧
    (run_tournament 0 0 (fun _ => 0)).ranking.filter (fun x => x.2 = (0 : Int)) =
      ((all_ids.map (fun id => (create_strategy id).name)).zip
        (tournamentFold 0 0 (fun _ => 0)).1).filter (fun x => x.2 = (0 : Int)) :=
  ⟨(tournament_ranking_perm_sorted_stable 0 0 (fun _ => 0)).1,
   (tournament_ranking_perm_sorted_stable 0 0 (fun _ => 0)).2.1,
   (tournament_ranking_perm_sorted_stable 0 0 (fun _ => 0)).2.2 0⟩

-- ## 7. Evolution mode

/-- A per-generation snapshot: generation index and (name, count) pairs. -/
structure Generation where
  gen_number : Nat
  populations : List (String × Nat)
deriving DecidableEq, Repr

/-- The compiled-in starting population of `run_evolution`
(TFT, AD, GT, AC, Rnd, Pav, GTFT, Joss). -/
def initial_population : List Nat := [3, 5, 2, 20, 2, 2, 3, 3]

/-- `active_strategies`: indices of the slots with count > 0, in order. -/
def activeStrategies (population : List Nat) : List Nat :=
  (List.range population.length).filter (fun i => 0 < population.getD i 0)

/-- Wrapping `u32` decrement, for `population[worst_idx] -= 1`
(two's-complement wrap of `n - 1` modulo `2 ^ 32`). -/
def u32dec (n : Nat) : Nat := (n + (2 ^ 32 - 1)) % 2 ^ 32

/-- One iteration of the evolution fitness inner loop, for a fixed row
slot `i` against column slot `j`: run one representative match from the
current random cursor, scale the row score by the opponent count
(`population[j] - 1` on self-play, else `population[j]`) and, when that
count is positive, add it into `scores[i]`. -/
def fitInner (rounds : Nat) (noise : ℚ) (os : Nat → ℚ) (population : List Nat)
    (i : Nat) (acc : List Int × Nat) (j : Nat) : List Int × Nat :=
  let p1 := create_strategy (all_ids.getD i "")
  let p2 := create_strategy (all_ids.getD j "")
  let r := playRounds p1 p2 noise os rounds [] 0 0 acc.2
  let opponent_count : Nat :=
    if i = j then population.getD j 0 - 1 else population.getD j 0
  (if 0 < opponent_count then
     acc.1.set i (acc.1.getD i 0 + r.2.1 * (opponent_count : Int))
   else acc.1, r.2.2.2)

/-- The tournament phase of one generation: fitness accumulators for every
ordered pair of active slots, starting from an all-zero `scores` vector. -/
def fitnessFold (rounds : Nat) (noise : ℚ) (os : Nat → ℚ) (population : List Nat)
    (active : List Nat) (k : Nat) : List Int × Nat :=
  active.foldl
    (fun acc i => active.foldl (fitInner rounds noise os population i) acc)
    (List.replicate all_ids.length 0, k)

/-- The running state of the selection scan. -/
structure Selection where
  best_idx : Nat
  max_score : Int
  worst_idx : Nat
  min_score : Int
deriving DecidableEq, Repr

/-- One step of the selection scan: strict improvements move the best /
worst indices, so the first slot encountered wins ties. -/
def selStep (scores : List Int) (st : Selection) (i : Nat) : Selection :=
  let avg_score := scores.getD i 0
  let st1 :=
    if avg_score > st.max_score then
      { st with best_idx := i, max_score := avg_score }
    else st
  if avg_score < st1.min_score then
    { st1 with worst_idx := i, min_score := avg_score }
  else st1

/-- The selection scan over the active slots.  The initial accumulator is
the source's `best_idx = 0, max_score = -1, worst_idx = 0,
min_score = i32::MAX`. -/
def selectionFold (scores : List Int) (active : List Nat) : Selection :=
  active.foldl (selStep scores) ⟨0, -1, 0, 2147483647⟩

/-- Natural selection: if best and worst differ, the best slot grows by 1
and the worst shrinks by 1 (`u32` arithmetic); otherwise no change. -/
def applySelection (sel : Selection) (population : List Nat) : List Nat :=
  if sel.best_idx ≠ sel.worst_idx then
    let p1 := population.set sel.best_idx (population.getD sel.best_idx 0 + 1)
    p1.set sel.worst_idx (u32dec (p1.getD sel.worst_idx 0))
  else population

/-- The main evolution loop: per generation emit a snapshot, stop if at
most one species is active, otherwise run the fitness phase and the
selection phase and recurse.  `n` is the remaining generation budget,
`gen` the 1-based generation index, `k` the random cursor. -/
def evoLoop (rounds : Nat) (noise : ℚ) (os : Nat → ℚ) :
    Nat → Nat → List Nat → Nat → List Generation
  | 0, _, _, _ => []
  | n + 1, gen, population, k =>
    let snapshot : Generation :=
      { gen_number := gen
        populations := (all_ids.map (fun id => (create_strategy id).name)).zip population }
    let active := activeStrategies population
    if active.length ≤ 1 then [snapshot]
    else
      let f := fitnessFold rounds noise os population active k
      let population' := applySelection (selectionFold f.1 active) population
      snapshot :: evoLoop rounds noise os n (gen + 1) population' f.2

/-- `run_evolution` from the source: 50 generations from the compiled-in
population `[3, 5, 2, 20, 2, 2, 3, 3]`.  The function takes no
`initialPopulations` and no `generationCount` argument. -/
def run_evolution (rounds : Nat) (noise : ℚ) (os : Nat → ℚ) : List Generation :=
  evoLoop rounds noise os 50 1 initial_population 0

-- ## Claims about the evolution entry point

/-- C2 (counterexample): the run does not start from a caller vector nor
from the uniform default of 5 per slot: the first emitted snapshot of any
run counts `[3, 5, 2, 20, 2, 2, 3, 3]`, not `[5, 5, 5, 5, 5, 5, 5, 5]` —
concretely at zero rounds, zero noise and the constant-zero source. -/
theorem c2_initial_population_not_uniform :
    ((run_evolution 0 0 (fun _ => 0)).getD 0 ⟨0, []⟩).populations.map Prod.snd ≠
      List.replicate 8 5 := by
  decide

/-- C2 (amended): `run_evolution` accepts no `initialPopulations` input at
all; every run starts from the compiled-in population vector
`[3, 5, 2, 20, 2, 2, 3, 3]`, which the first emitted snapshot reports. -/
theorem run_evolution_fixed_initial_population (rounds : Nat) (noise : ℚ) (os : Nat → ℚ) :
    (run_evolution rounds noise os).getD 0 ⟨0, []⟩ =
      { gen_number := 1
        populations := (all_ids.map (fun id => (create_strategy id).name)).zip
          initial_population } := by
  rfl

/-- The counts column of a snapshot. -/
def snapCounts (g : Generation) : List Nat := g.populations.map Prod.snd

/-- How many strategies a snapshot shows as alive. -/
def activeCount (g : Generation) : Nat := (activeStrategies (snapCounts g)).length

/-- `applySelection` never changes the width of the population vector. -/
theorem applySelection_length (sel : Selection) (population : List Nat) :
    (applySelection sel population).length = population.length := by
  unfold applySelection
  split
  · rw [List.length_set, List.length_set]
  · rfl

/-- The snapshot of an 8-wide population records exactly its counts. -/
theorem snapCounts_zip (population : List Nat) (h : population.length = 8) :
    snapCounts
      { gen_number := gen
        populations := (all_ids.map (fun id => (create_strategy id).name)).zip population } =
      population := by
  unfold snapCounts
  apply List.map_snd_zip
  simp [all_ids, h]

/-- Unfolding of one generation of the loop. -/
theorem evoLoop_succ (rounds : Nat) (noise : ℚ) (os : Nat → ℚ)
    (n gen : Nat) (population : List Nat) (k : Nat) :
    evoLoop rounds noise os (n + 1) gen population k =
      if (activeStrategies population).length ≤ 1 then
        [{ gen_number := gen
           populations := (all_ids.map (fun id => (create_strategy id).name)).zip population }]
      else
        { gen_number := gen
          populations :=
            (all_ids.map (fun id => (create_strategy id).name)).zip population } ::
          evoLoop rounds noise os n (gen + 1)
            (applySelection
              (selectionFold
                (fitnessFold rounds noise os population (activeStrategies population) k).1
                (activeStrategies population))
              population)
            (fitnessFold rounds noise os population (activeStrategies population) k).2 := rfl

/-- Shape of the whole loop output, for any 8-wide starting population:
at most `n` snapshots, at least one when the budget allows it, generation
numbers counting up from `gen`, an early stop exactly on an active count
≤ 1 (whose snapshot is still emitted), and an active count ≥ 2 at every
non-final snapshot. -/
theorem evoLoop_structure (rounds : Nat) (noise : ℚ) (os : Nat → ℚ) :
    ∀ (n gen : Nat) (population : List Nat) (k : Nat), population.length = 8 →
      (evoLoop rounds noise os n gen population k).length ≤ n ∧
      (1 ≤ n → 1 ≤ (evoLoop rounds noise os n gen population k).length) ∧
      (∀ m, m < (evoLoop rounds noise os n gen population k).length →
        ((evoLoop rounds noise os n gen population k).getD m ⟨0, []⟩).gen_number = gen + m) ∧
      ((evoLoop rounds noise os n gen population k).length < n →
        activeCount ((evoLoop rounds noise os n gen population k).getD
          ((evoLoop rounds noise os n gen population k).length - 1) ⟨0, []⟩) ≤ 1) ∧
      (∀ m, m + 1 < (evoLoop rounds noise os n gen population k).length →
        2 ≤ activeCount ((evoLoop rounds noise os n gen population k).getD m ⟨0, []⟩)) := by
  intro n
  induction n with
  | zero =>
    intro gen population k h
    refine ⟨le_refl _, by omega, ?_, by simp [evoLoop], ?_⟩ <;>
      exact fun m hm => absurd hm (by simp [evoLoop])
  | succ n ih =>
    intro gen population k hlen
    rw [evoLoop_succ]
    by_cases hact : (activeStrategies population).length ≤ 1
    · rw [if_pos hact]
      refine ⟨by simp only [List.length_singleton]; omega, fun _ => by simp, ?_, ?_, ?_⟩
      · intro m hm
        simp only [List.length_singleton] at hm
        interval_cases m
        simp
      · intro _
        simp only [List.length_singleton, Nat.sub_self, List.getD_cons_zero]
        unfold activeCount
        rw [snapCounts_zip population hlen]
        exact hact
      · intro m hm
        simp only [List.length_singleton] at hm
        omega
    · rw [if_neg hact]
      have hlen' : (applySelection
          (selectionFold
            (fitnessFold rounds noise os population (activeStrategies population) k).1
            (activeStrategies population))
          population).length = 8 := by
        rw [applySelection_length]; exact hlen
      obtain ⟨ih1, ih2, ih3, ih4, ih5⟩ := ih (gen + 1) _
        (fitnessFold rounds noise os population (activeStrategies population) k).2 hlen'
      have hsnap : activeCount
          { gen_number := gen
            populations :=
              (all_ids.map (fun id => (create_strategy id).name)).zip population } =
          (activeStrategies population).length := by
        unfold activeCount
        rw [snapCounts_zip population hlen]
      refine ⟨?_, fun _ => by simp, ?_, ?_, ?_⟩
      · simp only [List.length_cons]
        omega
      · intro m hm
        match m with
        | 0 => simp
        | m + 1 =>
          simp only [List.length_cons] at hm
          rw [List.getD_cons_succ, ih3 m (by omega)]
          omega
      · intro hstop
        simp only [List.length_cons] at hstop ⊢
        have hr1 : 1 ≤ (evoLoop rounds noise os n (gen + 1)
            (applySelection
              (selectionFold
                (fitnessFold rounds noise os population (activeStrategies population) k).1
                (activeStrategies population))
              population)
            (fitnessFold rounds noise os population (activeStrategies population) k).2).length :=
          ih2 (by omega)
        rw [Nat.add_sub_cancel]
        have : ∀ (l : List Generation) (d : Generation) (g : Generation), 1 ≤ l.length →
            (g :: l).getD l.length d = l.getD (l.length - 1) d := by
          intro l d g hl
          obtain ⟨m, hm⟩ : ∃ m, l.length = m + 1 := ⟨l.length - 1, by omega⟩
          rw [hm]
          simp
        rw [this _ _ _ hr1]
        exact ih4 (by omega)
      · intro m hm
        simp only [List.length_cons] at hm
        match m with
        | 0 =>
          simp only [List.getD_cons_zero]
          rw [hsnap]
          omega
        | m + 1 =>
          rw [List.getD_cons_succ]
          exact ih5 m (by omega)

/-- C4: the run emits exactly one snapshot per generation actually run —
the snapshot list carries the consecutive generation numbers 1, 2, … — and
stops either after 50 snapshots (the compiled-in generation cap) or
earlier at the first generation whose active-slot count is ≤ 1; in the
early-stop case that generation's snapshot is the last entry, so the
output length always equals the number of generations run. -/
theorem evolution_termination (rounds : Nat) (noise : ℚ) (os : Nat → ℚ) :
    1 ≤ (run_evolution rounds noise os).length ∧
    (run_evolution rounds noise os).length ≤ 50 ∧
    (∀ m, m < (run_evolution rounds noise os).length →
      ((run_evolution rounds noise os).getD m ⟨0, []⟩).gen_number = 1 + m) ∧
    ((run_evolution rounds noise os).length < 50 →
      activeCount ((run_evolution rounds noise os).getD
        ((run_evolution rounds noise os).length - 1) ⟨0, []⟩) ≤ 1) ∧
    (∀ m, m + 1 < (run_evolution rounds noise os).length →
      2 ≤ activeCount ((run_evolution rounds noise os).getD m ⟨0, []⟩)) := by
  obtain ⟨h1, h2, h3, h4, h5⟩ :=
    evoLoop_structure rounds noise os 50 1 initial_population 0 rfl
  exact ⟨h2 (by omega), h1, h3, h4, h5⟩

/-- C4 (witness): at a concrete invocation, the first snapshot exists and
is generation 1, and the run is within the 50-generation cap. -/
theorem evolution_termination_witness :
    1 ≤ (run_evolution 0 0 (fun _ => 0)).length ∧
    (run_evolution 0 0 (fun _ => 0)).length ≤ 50 ∧
    ((run_evolution 0 0 (fun _ => 0)).getD 0 ⟨0, []⟩).gen_number = 1 + 0 :=
  ⟨(evolution_termination 0 0 (fun _ => 0)).1,
   (evolution_termination 0 0 (fun _ => 0)).2.1,
   (evolution_termination 0 0 (fun _ => 0)).2.2.1 0
     (evolution_termination 0 0 (fun _ => 0)).1⟩

-- ## Bounds for the fitness and selection phases

/-- Every per-round payoff for player 1 lies in `[0, 5]`. -/
theorem payoff_fst_bounds (a b : Action) :
    0 ≤ (calculate_payoff a b).1 ∧ (calculate_payoff a b).1 ≤ 5 := by
  cases a <;> cases b <;> exact ⟨by decide, by decide⟩

/-- One unfolding of `playRounds`, with the round's two played actions and
the advanced cursor abstracted away. -/
theorem playRounds_succ_exists (p1 p2 : StrategyId) (noise : ℚ) (os : Nat → ℚ)
    (n : Nat) (history : List Round) (s1 s2 : Int) (k : Nat) :
    ∃ a1 a2 k2, playRounds p1 p2 noise os (n + 1) history s1 s2 k =
      playRounds p1 p2 noise os n (history ++ [(a1, a2)])
        (s1 + (calculate_payoff a1 a2).1) (s2 + (calculate_payoff a1 a2).2) k2 :=
  ⟨_, _, _, rfl⟩

/-- Player 1's cumulative score grows by between 0 and 5 per round. -/
theorem playRounds_fst_bounds (p1 p2 : StrategyId) (noise : ℚ) (os : Nat → ℚ)
    (n : Nat) :
    ∀ (history : List Round) (s1 s2 : Int) (k : Nat),
      s1 ≤ (playRounds p1 p2 noise os n history s1 s2 k).2.1 ∧
      (playRounds p1 p2 noise os n history s1 s2 k).2.1 ≤ s1 + 5 * n := by
  induction n with
  | zero =>
    intro history s1 s2 k
    constructor <;> simp [playRounds]
  | succ n ih =>
    intro history s1 s2 k
    obtain ⟨a1, a2, k2, hstep⟩ := playRounds_succ_exists p1 p2 noise os n history s1 s2 k
    rw [hstep]
    obtain ⟨hp0, hp5⟩ := payoff_fst_bounds a1 a2
    obtain ⟨hl, hu⟩ := ih (history ++ [(a1, a2)])
      (s1 + (calculate_payoff a1 a2).1) (s2 + (calculate_payoff a1 a2).2) k2
    constructor
    · linarith
    · push_cast
      linarith

/-- `getD` of the all-zero scoreboard is zero at every index. -/
theorem getD_replicate_zero (n idx : Nat) :
    (List.replicate n (0 : Int)).getD idx 0 = 0 := by
  rw [List.getD_eq_getElem?_getD, List.getElem?_replicate]
  split <;> rfl

/-- `set` at one index leaves `getD` at any other index unchanged. -/
theorem getD_set_ne {α : Type} (l : List α) (i j : Nat) (v d : α) (h : i ≠ j) :
    (l.set i v).getD j d = l.getD j d := by
  rw [List.getD_eq_getElem?_getD, List.getD_eq_getElem?_getD, List.getElem?_set_ne h]

/-- `getD` after an in-range `set` at the same index reads the new value. -/
theorem getD_set_self {α : Type} (l : List α) (i : Nat) (v d : α) (h : i < l.length) :
    (l.set i v).getD i d = v := by
  rw [List.getD_eq_getElem?_getD, List.getElem?_set_self h]
  rfl

/-- Every entry of a list of naturals is at most the list's sum. -/
theorem getD_le_sum (l : List Nat) : ∀ i : Nat, l.getD i 0 ≤ l.sum := by
  induction l with
  | nil => intro i; simp
  | cons a t ih =>
    intro i
    cases i with
    | zero => simp
    | succ i =>
      simp only [List.getD_cons_succ, List.sum_cons]
      exact le_trans (ih i) (Nat.le_add_left _ _)

/-- Replacing the entry at an in-range index shifts the sum by the
difference, stated subtraction-free for `Nat`. -/
theorem sum_set_add_getD (l : List Nat) :
    ∀ (i : Nat), i < l.length → ∀ v : Nat,
      (l.set i v).sum + l.getD i 0 = l.sum + v := by
  induction l with
  | nil => intro i hi; simp at hi
  | cons a t ih =>
    intro i hi v
    cases i with
    | zero => simp [List.set]; omega
    | succ i =>
      simp only [List.set, List.getD_cons_succ, List.sum_cons, List.length_cons] at hi ⊢
      have := ih i (by omega) v
      omega

/-- The wrapping decrement agrees with exact subtraction on positive
in-range values. -/
theorem u32dec_eq (n : Nat) (h1 : 1 ≤ n) (h2 : n < 2 ^ 32) : u32dec n = n - 1 := by
  unfold u32dec
  rw [show n + (2 ^ 32 - 1) = (n - 1) + 2 ^ 32 by omega, Nat.add_mod_right]
  exact Nat.mod_eq_of_lt (by omega)

/-- Membership in the active set means: in range, and count at least 1. -/
theorem mem_activeStrategies (population : List Nat) {i : Nat}
    (h : i ∈ activeStrategies population) :
    i < population.length ∧ 1 ≤ population.getD i 0 := by
  unfold activeStrategies at h
  rw [List.mem_filter] at h
  refine ⟨List.mem_range.mp h.1, ?_⟩
  have := of_decide_eq_true h.2
  omega

/-- The active set lists pairwise-distinct indices. -/
theorem activeStrategies_nodup (population : List Nat) :
    (activeStrategies population).Nodup :=
  (List.nodup_range _).filter _

/-- Reading a list through `getD` along `range` of its length recovers it. -/
theorem map_getD_range (l : List Nat) :
    (List.range l.length).map (fun i => l.getD i 0) = l := by
  induction l with
  | nil => rfl
  | cons a t ih =>
    rw [List.length_cons, List.range_succ_eq_map, List.map_cons, List.map_map]
    simp only [Function.comp_def, Nat.succ_eq_add_one, List.getD_cons_succ,
      List.getD_cons_zero]
    rw [ih]

/-- The counts of the active slots sum to at most the whole population. -/
theorem active_weight_le_sum (population : List Nat) :
    ((activeStrategies population).map (fun j => population.getD j 0)).sum ≤
      population.sum := by
  have hsub : List.Sublist
      ((activeStrategies population).map (fun j => population.getD j 0))
      ((List.range population.length).map (fun j => population.getD j 0)) :=
    (List.filter_sublist _).map _
  calc ((activeStrategies population).map (fun j => population.getD j 0)).sum
      ≤ ((List.range population.length).map (fun j => population.getD j 0)).sum :=
        hsub.sum_le_sum (fun a _ => Nat.zero_le a)
    _ = population.sum := by rw [map_getD_range]

/-- Casting a mapped `Nat` sum into `Int`. -/
theorem sum_map_intCast (l : List Nat) (f : Nat → Nat) :
    (l.map (fun j => (f j : Int))).sum = ((l.map f).sum : Int) := by
  induction l with
  | nil => rfl
  | cons a t ih => simp [ih]

/-- One fitness update touches only slot `i`, never decreases it, and adds
at most `5 · rounds · population[j]`. -/
theorem fitInner_bounds (rounds : Nat) (noise : ℚ) (os : Nat → ℚ)
    (population : List Nat) (i j : Nat) (acc : List Int × Nat) :
    (∀ idx, idx ≠ i →
      (fitInner rounds noise os population i acc j).1.getD idx 0 = acc.1.getD idx 0) ∧
    acc.1.getD i 0 ≤ (fitInner rounds noise os population i acc j).1.getD i 0 ∧
    (fitInner rounds noise os population i acc j).1.getD i 0 ≤
      acc.1.getD i 0 + 5 * rounds * (population.getD j 0 : Int) := by
  have hw : (0 : Int) ≤ 5 * rounds * (population.getD j 0 : Int) := by positivity
  obtain ⟨ht0, ht5⟩ := playRounds_fst_bounds
    (create_strategy (all_ids.getD i "")) (create_strategy (all_ids.getD j ""))
    noise os rounds [] 0 0 acc.2
  rw [zero_add] at ht5
  set t : Int := (playRounds (create_strategy (all_ids.getD i ""))
    (create_strategy (all_ids.getD j "")) noise os rounds [] 0 0 acc.2).2.1 with htdef
  set oc : Nat :=
    if i = j then population.getD j 0 - 1 else population.getD j 0 with hocdef
  have hocle : (oc : Int) ≤ (population.getD j 0 : Int) := by
    rw [hocdef]
    split
    · exact_mod_cast Nat.sub_le _ _
    · exact le_refl _
  have hfst : (fitInner rounds noise os population i acc j).1 =
      if 0 < oc then acc.1.set i (acc.1.getD i 0 + t * (oc : Int)) else acc.1 := rfl
  rw [hfst]
  have hmul0 : (0 : Int) ≤ t * (oc : Int) :=
    mul_nonneg ht0 (Int.natCast_nonneg oc)
  have hmul5 : t * (oc : Int) ≤ 5 * rounds * (population.getD j 0 : Int) :=
    mul_le_mul ht5 hocle (Int.natCast_nonneg oc) (by positivity)
  by_cases hoc : 0 < oc
  · rw [if_pos hoc]
    by_cases hi : i < acc.1.length
    · refine ⟨fun idx hne => getD_set_ne _ _ _ _ _ (Ne.symm hne), ?_, ?_⟩
      · rw [getD_set_self _ _ _ _ hi]
        linarith
      · rw [getD_set_self _ _ _ _ hi]
        linarith
    · rw [List.set_eq_of_length_le (by omega)]
      exact ⟨fun _ _ => rfl, le_refl _, by linarith⟩
  · rw [if_neg hoc]
    exact ⟨fun _ _ => rfl, le_refl _, by linarith⟩

/-- The inner fitness loop over a column list `js` touches only slot `i`
and adds at most `5 · rounds · Σ_{j ∈ js} population[j]` to it. -/
theorem fitInner_fold_bounds (rounds : Nat) (noise : ℚ) (os : Nat → ℚ)
    (population : List Nat) (i : Nat) :
    ∀ (js : List Nat) (acc : List Int × Nat),
      (∀ idx, idx ≠ i →
        (js.foldl (fitInner rounds noise os population i) acc).1.getD idx 0 =
          acc.1.getD idx 0) ∧
      acc.1.getD i 0 ≤
        (js.foldl (fitInner rounds noise os population i) acc).1.getD i 0 ∧
      (js.foldl (fitInner rounds noise os population i) acc).1.getD i 0 ≤
        acc.1.getD i 0 +
          5 * rounds * ((js.map (fun j => (population.getD j 0 : Int))).sum) := by
  intro js
  induction js with
  | nil =>
    intro acc
    exact ⟨fun _ _ => rfl, le_refl _, by simp⟩
  | cons j js ih =>
    intro acc
    rw [List.foldl_cons]
    obtain ⟨hoth, hlo, hup⟩ :=
      fitInner_bounds rounds noise os population i j acc
    obtain ⟨ihoth, ihlo, ihup⟩ := ih (fitInner rounds noise os population i acc j)
    refine ⟨?_, ?_, ?_⟩
    · intro idx hne
      rw [ihoth idx hne, hoth idx hne]
    · exact le_trans hlo ihlo
    · rw [List.map_cons, List.sum_cons]
      linarith

/-- The whole fitness phase keeps every accumulator between 0 and
`5 · rounds · Σ_{j ∈ active} population[j]`, provided the processed row
slots are pairwise distinct and start at zero. -/
theorem fitness_outer_bounds (rounds : Nat) (noise : ℚ) (os : Nat → ℚ)
    (population : List Nat) (active : List Nat) :
    ∀ (is : List Nat) (acc : List Int × Nat), is.Nodup →
      (∀ idx, 0 ≤ acc.1.getD idx 0) →
      (∀ idx, acc.1.getD idx 0 ≤
        5 * rounds * ((active.map (fun j => (population.getD j 0 : Int))).sum)) →
      (∀ idx, idx ∈ is → acc.1.getD idx 0 = 0) →
      (∀ idx, 0 ≤
        ((is.foldl (fun a i => active.foldl (fitInner rounds noise os population i) a)
          acc).1.getD idx 0)) ∧
      (∀ idx,
        ((is.foldl (fun a i => active.foldl (fitInner rounds noise os population i) a)
          acc).1.getD idx 0) ≤
          5 * rounds * ((active.map (fun j => (population.getD j 0 : Int))).sum)) := by
  intro is
  induction is with
  | nil => exact fun acc _ h0 hB _ => ⟨h0, hB⟩
  | cons i is ih =>
    intro acc hnd h0 hB hz
    rw [List.foldl_cons]
    obtain ⟨hoth, hlo, hup⟩ :=
      fitInner_fold_bounds rounds noise os population i active acc
    have hzi : acc.1.getD i 0 = 0 := hz i (List.mem_cons_self i is)
    refine ih _ (List.nodup_cons.mp hnd).2 ?_ ?_ ?_
    · intro idx
      by_cases hidx : idx = i
      · subst hidx
        exact le_trans (le_of_eq hzi.symm) hlo
      · rw [hoth idx hidx]
        exact h0 idx
    · intro idx
      by_cases hidx : idx = i
      · subst hidx
        rw [hzi] at hup
        simpa using hup
      · rw [hoth idx hidx]
        exact hB idx
    · intro idx hidx
      have hne : idx ≠ i := fun hc => (List.nodup_cons.mp hnd).1 (hc ▸ hidx)
      rw [hoth idx hne]
      exact hz idx (List.mem_cons_of_mem i hidx)

/-- Bounds for the scores the selection phase reads: every accumulator is
non-negative and at most `5 · rounds · Σ_{j ∈ active} population[j]`. -/
theorem fitnessFold_bounds (rounds : Nat) (noise : ℚ) (os : Nat → ℚ)
    (population : List Nat) (active : List Nat) (k : Nat) (hnd : active.Nodup) :
    (∀ idx, 0 ≤ (fitnessFold rounds noise os population active k).1.getD idx 0) ∧
    (∀ idx, (fitnessFold rounds noise os population active k).1.getD idx 0 ≤
      5 * rounds * ((active.map (fun j => (population.getD j 0 : Int))).sum)) := by
  have hB : (0 : Int) ≤
      5 * rounds * ((active.map (fun j => (population.getD j 0 : Int))).sum) := by
    have : (0 : Int) ≤ (active.map (fun j => (population.getD j 0 : Int))).sum :=
      List.sum_nonneg (by
        intro x hx
        obtain ⟨j, _, rfl⟩ := List.mem_map.mp hx
        exact Int.natCast_nonneg _)
    positivity
  unfold fitnessFold
  exact fitness_outer_bounds rounds noise os population active active
    (List.replicate all_ids.length 0, k) hnd
    (fun idx => by rw [getD_replicate_zero])
    (fun idx => by rw [getD_replicate_zero]; exact hB)
    (fun idx _ => getD_replicate_zero _ _)

-- ## The selection scan lands on active slots

/-- A selection step keeps the best/worst indices inside any set that
contains them and the scanned index. -/
theorem selStep_mem {S : List Nat} (scores : List Int) (st : Selection) (i : Nat)
    (hb : st.best_idx ∈ S) (hw : st.worst_idx ∈ S) (hi : i ∈ S) :
    (selStep scores st i).best_idx ∈ S ∧ (selStep scores st i).worst_idx ∈ S := by
  simp only [selStep]
  split <;> split <;>
    refine ⟨?_, ?_⟩ <;> first | exact hi | exact hb | exact hw

/-- Folding selection steps over indices of `S` keeps best/worst in `S`. -/
theorem selFold_mem {S : List Nat} (scores : List Int) :
    ∀ (l : List Nat) (st : Selection), st.best_idx ∈ S → st.worst_idx ∈ S →
      (∀ i ∈ l, i ∈ S) →
      (l.foldl (selStep scores) st).best_idx ∈ S ∧
      (l.foldl (selStep scores) st).worst_idx ∈ S := by
  intro l
  induction l with
  | nil => exact fun st hb hw _ => ⟨hb, hw⟩
  | cons i l ih =>
    intro st hb hw hl
    rw [List.foldl_cons]
    obtain ⟨hb', hw'⟩ := selStep_mem scores st i hb hw (hl i (List.mem_cons_self i l))
    exact ih _ hb' hw' (fun x hx => hl x (List.mem_cons_of_mem i hx))

/-- The first scanned slot replaces both the artificial `max_score = -1`
(its score is non-negative) and the artificial `min_score = i32::MAX`
(its score is below `2147483647`). -/
theorem selStep_init (scores : List Int) (a : Nat)
    (h0 : 0 ≤ scores.getD a 0) (hlt : scores.getD a 0 < 2147483647) :
    selStep scores ⟨0, -1, 0, 2147483647⟩ a =
      ⟨a, scores.getD a 0, a, scores.getD a 0⟩ := by
  simp only [selStep]
  rw [if_pos (show scores.getD a 0 > -1 by linarith)]
  rw [if_pos (show scores.getD a 0 < (2147483647 : Int) by linarith)]

/-- If every active score is non-negative and below `i32::MAX`, the
selection scan returns a best and a worst slot from the active set. -/
theorem selectionFold_mem (scores : List Int) (active : List Nat)
    (hne : active ≠ [])
    (h0 : ∀ i ∈ active, 0 ≤ scores.getD i 0)
    (hlt : ∀ i ∈ active, scores.getD i 0 < 2147483647) :
    (selectionFold scores active).best_idx ∈ active ∧
    (selectionFold scores active).worst_idx ∈ active := by
  obtain ⟨a, l, rfl⟩ := List.exists_cons_of_ne_nil hne
  unfold selectionFold
  rw [List.foldl_cons, selStep_init scores a
    (h0 a (List.mem_cons_self a l)) (hlt a (List.mem_cons_self a l))]
  exact selFold_mem scores l _ (List.mem_cons_self a l) (List.mem_cons_self a l)
    (fun i hi => List.mem_cons_of_mem a hi)

-- ## The per-generation state transition

/-- One generation's population/cursor transition of the evolution loop:
the identity once at most one slot is active, otherwise the fitness phase
followed by the selection phase. -/
def evoStep (rounds : Nat) (noise : ℚ) (os : Nat → ℚ) (s : List Nat × Nat) :
    List Nat × Nat :=
  if (activeStrategies s.1).length ≤ 1 then s
  else
    (applySelection
      (selectionFold
        (fitnessFold rounds noise os s.1 (activeStrategies s.1) s.2).1
        (activeStrategies s.1)) s.1,
     (fitnessFold rounds noise os s.1 (activeStrategies s.1) s.2).2)

/-- The population/cursor state before generation `m + 1`'s snapshot. -/
def evoTrajectory (rounds : Nat) (noise : ℚ) (os : Nat → ℚ) (m : Nat) :
    List Nat × Nat :=
  (evoStep rounds noise os)^[m] (initial_population, 0)

/-- As long as fitness totals cannot reach `i32::MAX` (the hypothesis
`200 · rounds < 2147483647` bounds them by `5 · rounds · 40`), one
generation step preserves the population total (40) and width (8), and
its selected worst slot is an active one. -/
theorem evoStep_sound (rounds : Nat) (noise : ℚ) (os : Nat → ℚ)
    (hR : 200 * (rounds : Int) < 2147483647) (s : List Nat × Nat)
    (hsum : s.1.sum = 40)
    (hact : ¬ (activeStrategies s.1).length ≤ 1) :
    (selectionFold (fitnessFold rounds noise os s.1 (activeStrategies s.1) s.2).1
        (activeStrategies s.1)).best_idx ∈ activeStrategies s.1 ∧
    (selectionFold (fitnessFold rounds noise os s.1 (activeStrategies s.1) s.2).1
        (activeStrategies s.1)).worst_idx ∈ activeStrategies s.1 ∧
    (applySelection
      (selectionFold (fitnessFold rounds noise os s.1 (activeStrategies s.1) s.2).1
        (activeStrategies s.1)) s.1).sum = 40 := by
  obtain ⟨hf0, hfB⟩ := fitnessFold_bounds rounds noise os s.1
    (activeStrategies s.1) s.2 (activeStrategies_nodup s.1)
  have hT : ((activeStrategies s.1).map (fun j => (s.1.getD j 0 : Int))).sum ≤ 40 := by
    rw [sum_map_intCast]
    calc (((activeStrategies s.1).map (fun j => s.1.getD j 0)).sum : Int)
        ≤ (s.1.sum : Int) := by exact_mod_cast active_weight_le_sum s.1
      _ = 40 := by rw [hsum]; rfl
  have hlt : ∀ i ∈ activeStrategies s.1,
      (fitnessFold rounds noise os s.1 (activeStrategies s.1) s.2).1.getD i 0 <
        2147483647 := by
    intro i _
    calc (fitnessFold rounds noise os s.1 (activeStrategies s.1) s.2).1.getD i 0
        ≤ 5 * rounds *
            ((activeStrategies s.1).map (fun j => (s.1.getD j 0 : Int))).sum := hfB i
      _ ≤ 5 * rounds * 40 := by
          have h5 : (0 : Int) ≤ 5 * rounds := by positivity
          exact mul_le_mul_of_nonneg_left hT h5
      _ = 200 * rounds := by ring
      _ < 2147483647 := hR
  have hne : activeStrategies s.1 ≠ [] := by
    intro hc
    rw [hc] at hact
    simp at hact
  obtain ⟨hbm, hwm⟩ := selectionFold_mem
    (fitnessFold rounds noise os s.1 (activeStrategies s.1) s.2).1
    (activeStrategies s.1) hne (fun i _ => hf0 i) hlt
  refine ⟨hbm, hwm, ?_⟩
  obtain ⟨hblt, _⟩ := mem_activeStrategies s.1 hbm
  obtain ⟨hwlt, hw1⟩ := mem_activeStrategies s.1 hwm
  set sel := selectionFold
    (fitnessFold rounds noise os s.1 (activeStrategies s.1) s.2).1
    (activeStrategies s.1) with hseldef
  unfold applySelection
  split
  · case isTrue hbw =>
    have hcount : s.1.getD sel.worst_idx 0 < 2 ^ 32 :=
      lt_of_le_of_lt (getD_le_sum s.1 sel.worst_idx) (by rw [hsum]; norm_num)
    have h1 : (s.1.set sel.best_idx (s.1.getD sel.best_idx 0 + 1)).sum +
        s.1.getD sel.best_idx 0 = s.1.sum + (s.1.getD sel.best_idx 0 + 1) :=
      sum_set_add_getD s.1 sel.best_idx hblt _
    have h2 : (s.1.set sel.best_idx (s.1.getD sel.best_idx 0 + 1)).getD
        sel.worst_idx 0 = s.1.getD sel.worst_idx 0 :=
      getD_set_ne _ _ _ _ _ hbw
    have hlen1 : sel.worst_idx <
        (s.1.set sel.best_idx (s.1.getD sel.best_idx 0 + 1)).length := by
      rw [List.length_set]
      exact hwlt
    have h3 : ((s.1.set sel.best_idx (s.1.getD sel.best_idx 0 + 1)).set
          sel.worst_idx (u32dec ((s.1.set sel.best_idx
            (s.1.getD sel.best_idx 0 + 1)).getD sel.worst_idx 0))).sum +
        (s.1.set sel.best_idx (s.1.getD sel.best_idx 0 + 1)).getD sel.worst_idx 0 =
        (s.1.set sel.best_idx (s.1.getD sel.best_idx 0 + 1)).sum +
          u32dec ((s.1.set sel.best_idx
            (s.1.getD sel.best_idx 0 + 1)).getD sel.worst_idx 0) :=
      sum_set_add_getD _ sel.worst_idx hlen1 _
    rw [h2] at h3
    rw [u32dec_eq _ hw1 hcount] at h3
    show ((s.1.set sel.best_idx (s.1.getD sel.best_idx 0 + 1)).set sel.worst_idx
      (u32dec ((s.1.set sel.best_idx (s.1.getD sel.best_idx 0 + 1)).getD
        sel.worst_idx 0))).sum = 40
    rw [h2, u32dec_eq _ hw1 hcount]
    omega
  · exact hsum

/-- Along every evolution run with in-range fitness totals, the population
vector keeps its total of 40 and its width of 8. -/
theorem evoTrajectory_invariant (rounds : Nat) (noise : ℚ) (os : Nat → ℚ)
    (hR : 200 * (rounds : Int) < 2147483647) :
    ∀ m, (evoTrajectory rounds noise os m).1.sum = 40 ∧
      (evoTrajectory rounds noise os m).1.length = 8 := by
  intro m
  induction m with
  | zero =>
    constructor
    · show initial_population.sum = 40
      decide
    · rfl
  | succ m ih =>
    have hstep : evoTrajectory rounds noise os (m + 1) =
        evoStep rounds noise os (evoTrajectory rounds noise os m) := by
      unfold evoTrajectory
      rw [Function.iterate_succ_apply']
    rw [hstep]
    unfold evoStep
    split
    · exact ih
    · case isFalse hact =>
      obtain ⟨_, _, hsum⟩ := evoStep_sound rounds noise os hR
        (evoTrajectory rounds noise os m) ih.1 hact
      refine ⟨hsum, ?_⟩
      rw [applySelection_length]
      exact ih.2

/-- Each emitted snapshot within the loop output shows exactly the
population of the corresponding iterate of the per-generation step. -/
theorem evoLoop_getD_trajectory (rounds : Nat) (noise : ℚ) (os : Nat → ℚ) :
    ∀ (n m gen : Nat) (s : List Nat × Nat),
      m < (evoLoop rounds noise os n gen s.1 s.2).length →
      (evoLoop rounds noise os n gen s.1 s.2).getD m ⟨0, []⟩ =
        { gen_number := gen + m
          populations := (all_ids.map (fun id => (create_strategy id).name)).zip
            (((evoStep rounds noise os)^[m]) s).1 } := by
  intro n
  induction n with
  | zero =>
    intro m gen s hm
    simp [evoLoop] at hm
  | succ n ih =>
    intro m gen s hm
    rw [evoLoop_succ] at hm ⊢
    by_cases hact : (activeStrategies s.1).length ≤ 1
    · rw [if_pos hact] at hm ⊢
      have hm0 : m = 0 := by
        simp only [List.length_singleton] at hm
        omega
      subst hm0
      simp
    · rw [if_neg hact] at hm ⊢
      have hstep : evoStep rounds noise os s =
          (applySelection
            (selectionFold
              (fitnessFold rounds noise os s.1 (activeStrategies s.1) s.2).1
              (activeStrategies s.1)) s.1,
           (fitnessFold rounds noise os s.1 (activeStrategies s.1) s.2).2) := by
        unfold evoStep
        rw [if_neg hact]
      cases m with
      | zero => simp
      | succ m =>
        rw [List.getD_cons_succ]
        rw [List.length_cons] at hm
        have ihres := ih m (gen + 1) (evoStep rounds noise os s)
          (by rw [hstep]; exact Nat.lt_of_succ_lt_succ hm)
        rw [hstep] at ihres
        dsimp only at ihres
        rw [Function.iterate_succ_apply, hstep, ihres,
          show gen + 1 + m = gen + (m + 1) by omega]

/-- C3: along every evolution run (with fitness totals in `i32` range,
`200 · rounds < 2147483647`), the population total shown by consecutive
snapshots never changes: the selection step's +1/−1 reallocation is
zero-sum, and a best = worst tie leaves the vector unchanged. -/
theorem evolution_population_sum_invariant (rounds : Nat) (noise : ℚ) (os : Nat → ℚ)
    (hR : 200 * (rounds : Int) < 2147483647) (m : Nat)
    (hm : m + 1 < (run_evolution rounds noise os).length) :
    (snapCounts ((run_evolution rounds noise os).getD (m + 1) ⟨0, []⟩)).sum =
      (snapCounts ((run_evolution rounds noise os).getD m ⟨0, []⟩)).sum := by
  have hrun : run_evolution rounds noise os =
      evoLoop rounds noise os 50 1 (initial_population, 0).1 (initial_population, 0).2 :=
    rfl
  rw [hrun] at hm ⊢
  rw [evoLoop_getD_trajectory rounds noise os 50 (m + 1) 1 (initial_population, 0) hm,
    evoLoop_getD_trajectory rounds noise os 50 m 1 (initial_population, 0) (by omega)]
  have hiter : ∀ j : Nat,
      (evoStep rounds noise os)^[j] (initial_population, 0) =
        evoTrajectory rounds noise os j := fun _ => rfl
  rw [hiter, hiter]
  have h1 := evoTrajectory_invariant rounds noise os hR (m + 1)
  have h2 := evoTrajectory_invariant rounds noise os hR m
  rw [snapCounts_zip _ h1.2, snapCounts_zip _ h2.2, h1.1, h2.1]

set_option maxRecDepth 100000 in
/-- C3 (witness): generations 1 and 2 of a concrete run carry the same
population total. -/
theorem evolution_population_sum_invariant_witness :
    (snapCounts ((run_evolution 0 0 (fun _ => 0)).getD 1 ⟨0, []⟩)).sum =
      (snapCounts ((run_evolution 0 0 (fun _ => 0)).getD 0 ⟨0, []⟩)).sum :=
  evolution_population_sum_invariant 0 0 (fun _ => 0) (by norm_num) 0 (by decide)

/-- C10: in every evolution run (with fitness totals in `i32` range), the
two unsigned decrements act only on slots of the active set, whose counts
are at least 1, so they never underflow: every active slot `j` (the
`population[j] - 1` of the self-play scaling) has count ≥ 1, and the
selection phase's worst slot is active with count ≥ 1 (the
`population[worst_idx] -= 1`). -/
theorem evolution_no_underflow (rounds : Nat) (noise : ℚ) (os : Nat → ℚ)
    (hR : 200 * (rounds : Int) < 2147483647) (m : Nat)
    (hact : 2 ≤ (activeStrategies (evoTrajectory rounds noise os m).1).length) :
    (∀ j ∈ activeStrategies (evoTrajectory rounds noise os m).1,
      1 ≤ (evoTrajectory rounds noise os m).1.getD j 0) ∧
    (selectionFold
      (fitnessFold rounds noise os (evoTrajectory rounds noise os m).1
        (activeStrategies (evoTrajectory rounds noise os m).1)
        (evoTrajectory rounds noise os m).2).1
      (activeStrategies (evoTrajectory rounds noise os m).1)).worst_idx ∈
        activeStrategies (evoTrajectory rounds noise os m).1 ∧
    1 ≤ (evoTrajectory rounds noise os m).1.getD
      (selectionFold
        (fitnessFold rounds noise os (evoTrajectory rounds noise os m).1
          (activeStrategies (evoTrajectory rounds noise os m).1)
          (evoTrajectory rounds noise os m).2).1
        (activeStrategies (evoTrajectory rounds noise os m).1)).worst_idx 0 := by
  have hinv := evoTrajectory_invariant rounds noise os hR m
  have hactn : ¬ (activeStrategies (evoTrajectory rounds noise os m).1).length ≤ 1 := by
    omega
  obtain ⟨_, hw, _⟩ := evoStep_sound rounds noise os hR
    (evoTrajectory rounds noise os m) hinv.1 hactn
  exact ⟨fun j hj => (mem_activeStrategies _ hj).2, hw, (mem_activeStrategies _ hw).2⟩

/-- C10 (witness): the no-underflow facts at the first generation of a
concrete run. -/
theorem evolution_no_underflow_witness :
    (∀ j ∈ activeStrategies (evoTrajectory 0 0 (fun _ => 0) 0).1,
      1 ≤ (evoTrajectory 0 0 (fun _ => 0) 0).1.getD j 0) ∧
    (selectionFold
      (fitnessFold 0 0 (fun _ => 0) (evoTrajectory 0 0 (fun _ => 0) 0).1
        (activeStrategies (evoTrajectory 0 0 (fun _ => 0) 0).1)
        (evoTrajectory 0 0 (fun _ => 0) 0).2).1
      (activeStrategies (evoTrajectory 0 0 (fun _ => 0) 0).1)).worst_idx ∈
        activeStrategies (evoTrajectory 0 0 (fun _ => 0) 0).1 ∧
    1 ≤ (evoTrajectory 0 0 (fun _ => 0) 0).1.getD
      (selectionFold
        (fitnessFold 0 0 (fun _ => 0) (evoTrajectory 0 0 (fun _ => 0) 0).1
          (activeStrategies (evoTrajectory 0 0 (fun _ => 0) 0).1)
          (evoTrajectory 0 0 (fun _ => 0) 0).2).1
        (activeStrategies (evoTrajectory 0 0 (fun _ => 0) 0).1)).worst_idx 0 :=
  evolution_no_underflow 0 0 (fun _ => 0) (by norm_num) 0 (by decide)

end Evolutio
